import Mathlib

/-!
# Verification of the Stash stock-dashboard indicator engine

Shallow embedding of `src/app.py`.  The app ingests per-symbol OHLCV series
(pandas DataFrames), derives indicator columns in `add_indicators`, draws a
layered chart in `draw_chart`, shows a performance summary in `show_summary`
and exports a tagged CSV in `download_section`.

Numeric series are embedded as `List K` over a linear ordered field `K`
(instantiated at `ℚ` for executable witnesses and at `ℝ` where the code's
floating-point square root forces irrational values).  Undefined (NaN-masked)
entries are represented with `Option`/dedicated constructors where a claim
depends on them.

Library semantics used by the source and modelled here:
* `Series.ewm(span=s).mean()` (pandas, default `adjust=True`): the entry at
  index `t` is the weighted average `Σ_{i≤t} (1-α)^(t-i)·x_i / Σ_{j≤t} (1-α)^j`
  with `α = 2/(s+1)`.
* `Series.ewm(..., adjust=False).mean()` (used by the `ta` package inside
  `RSIIndicator` and `MACD`): the recurrence `y_0 = x_0`,
  `y_t = (1-α)·y_{t-1} + α·x_t`.
* `Series.rolling(w).mean()` / `.std(ddof=0)`: trailing-window mean and
  population standard deviation, undefined for the first `w-1` entries.
* float division by zero yields `nan` (0/0) or `±inf` (x/0), never an
  exception.
-/

namespace Stash

section NumericCore

variable {K : Type} [LinearOrderedField K] [DecidableEq K]

/-- Geometric weight sum `Σ_{j=0}^{t} β^j`, the denominator of the pandas
`adjust=True` exponentially weighted mean. -/
def wSum (β : K) (t : ℕ) : K :=
  ∑ j in Finset.range (t + 1), β ^ j

/-- Entry `t` of `xs.ewm(span=s).mean()` with the pandas default
`adjust=True`: weighted average of all observations so far with weights
`(1-α)^(t-i)`, `α = 2/(s+1)`.  This embeds the source lines
`df['EMA_20'] = df['Close'].ewm(span=20).mean()` (and `EMA_50`). -/
def ewmAdjEntry (s : K) (xs : List K) (t : ℕ) : K :=
  (∑ i in Finset.range (t + 1), (1 - 2 / (s + 1)) ^ (t - i) * xs.getD i 0) /
    wSum (1 - 2 / (s + 1)) t

/-- The full EMA column added by `add_indicators` for a span `s`:
one `ewm(span=s, adjust=True)` value per input row. -/
def emaCol (s : K) (xs : List K) : List K :=
  (List.range xs.length).map (fun t => ewmAdjEntry s xs t)

/-- Tail of `xs.ewm(alpha=α, adjust=False).mean()` after the seed `prev`:
each output is `(1-α)·previous + α·x`. -/
def ewmRecAux (α : K) (prev : K) : List K → List K
  | [] => []
  | x :: xs => ((1 - α) * prev + α * x) :: ewmRecAux α ((1 - α) * prev + α * x) xs

/-- Model of `xs.ewm(alpha=α, adjust=False).mean()`: seeded by the first observation,
then the recurrence `y_t = (1-α)·y_{t-1} + α·x_t`.  This is the exponential
smoothing used by the `ta` package for RSI averages and MACD EMAs. -/
def ewmRec (α : K) : List K → List K
  | [] => []
  | x :: xs => x :: ewmRecAux α x xs

/-- The spec-side EMA recurrence, written exactly as the spec states it:
`EMA[0] = c0` and `EMA[t] = α·c[t] + (1-α)·EMA[t-1]` with `α = 2/(span+1)`
(here taking `α` directly). -/
def emaSpecAt (α : K) (xs : List K) : ℕ → K
  | 0 => xs.getD 0 0
  | t + 1 => α * xs.getD (t + 1) 0 + (1 - α) * emaSpecAt α xs t

/-- First differences `close.diff(1)` (dropping the leading NaN):
entry `t` is `c_{t+1} - c_t`. -/
def priceDiffs (closes : List K) : List K :=
  List.zipWith (fun a b => b - a) closes closes.tail

/-- Upward moves: `diff.where(diff > 0, 0)` in `ta.momentum.RSIIndicator`. -/
def upMoves (closes : List K) : List K :=
  (priceDiffs closes).map (fun d => max d 0)

/-- Downward moves: `-diff.where(diff < 0, 0)` in `ta.momentum.RSIIndicator`. -/
def downMoves (closes : List K) : List K :=
  (priceDiffs closes).map (fun d => max (-d) 0)

/-- Modelled from the spec (the `ta` package is an external dependency, its
source is not part of this repository): Wilder-smoothed average gain,
`up.ewm(alpha=1/14, adjust=False).mean()`. -/
def avgGain (closes : List K) : List K :=
  ewmRec (1 / 14) (upMoves closes)

/-- Modelled from the spec: Wilder-smoothed average loss,
`down.ewm(alpha=1/14, adjust=False).mean()`. -/
def avgLoss (closes : List K) : List K :=
  ewmRec (1 / 14) (downMoves closes)

/-- Modelled from the spec: the RSI values of `ta.momentum.RSIIndicator.rsi`
(source line `df['RSI'] = ta.momentum.RSIIndicator(df['Close']).rsi()`):
`RS = avg_gain/avg_loss`, `RSI = 100 - 100/(1+RS)`, explicitly defined as
`100` when the average loss is zero.  `min_periods` masking only hides a
leading prefix of these values and is not modelled: the claims quantify over
the defined entries. -/
def rsiList (closes : List K) : List K :=
  List.zipWith (fun u d => if d = 0 then 100 else 100 - 100 / (1 + u / d))
    (avgGain closes) (avgLoss closes)

/-- Modelled from the spec: `ta.trend.MACD(close).macd()`, the difference of
the span-12 and span-26 `adjust=False` EMAs of the close series
(`α = 2/13` and `α = 2/27`). -/
def taMacd (closes : List K) : List K :=
  List.zipWith (fun a b => a - b) (ewmRec (2 / 13) closes) (ewmRec (2 / 27) closes)

/-- Modelled from the spec: `ta.trend.MACD(close).macd_signal()`, the span-9
(`α = 2/10`) `adjust=False` EMA of the MACD values. -/
def taMacdSignalVals (closes : List K) : List K :=
  ewmRec (2 / 10) (taMacd closes)

/-- Trailing-window mean at index `t` for window `w`:
`(Σ_{i=t+1-w}^{t} x_i) / w`.  The defined value of `close.rolling(w).mean()`. -/
def rollingMeanAt (w : ℕ) (xs : List K) (t : ℕ) : K :=
  (∑ i in Finset.Icc (t + 1 - w) t, xs.getD i 0) / (w : K)

/-- The column `df['Close'].rolling(w).mean()` (source lines for `SMA_20`
and `SMA_50`): undefined (`none`) for the first `w-1` rows, the trailing
mean afterwards. -/
def rollingMeanCol (w : ℕ) (xs : List K) : List (Option K) :=
  (List.range xs.length).map
    (fun t => if t + 1 < w then none else some (rollingMeanAt w xs t))

/-- Trailing-window population variance (`rolling(w).std(ddof=0)` squared),
as used by `ta.volatility.BollingerBands`. -/
def rollingVarAt (w : ℕ) (xs : List K) (t : ℕ) : K :=
  (∑ i in Finset.Icc (t + 1 - w) t, (xs.getD i 0 - rollingMeanAt w xs t) ^ 2) / (w : K)

/-- A pandas float value: a number, `nan`, or a signed infinity.  Division by
zero produces one of the non-numeric values instead of raising. -/
inductive PFloat (K : Type) where
  | nan : PFloat K
  | pinf : PFloat K
  | ninf : PFloat K
  | val : K → PFloat K
deriving DecidableEq

/-- Float division as pandas performs it elementwise: `0/0 = nan`,
`x/0 = ±inf` for `x ≠ 0`, ordinary division otherwise.  No exception. -/
def pdiv (a b : K) : PFloat K :=
  if b = 0 then (if a = 0 then PFloat.nan else if 0 < a then PFloat.pinf else PFloat.ninf)
  else PFloat.val (a / b)

/-- Running VWAP: carries the cumulative `Σ close·volume` and `Σ volume`
and divides at each bar. -/
def vwapAux (scv sv : K) : List (K × K) → List (PFloat K)
  | [] => []
  | b :: rest =>
      pdiv (scv + b.1 * b.2) (sv + b.2) :: vwapAux (scv + b.1 * b.2) (sv + b.2) rest

/-- The column `(df['Close'] * df['Volume']).cumsum() / df['Volume'].cumsum()`
(source `VWAP` line), on the list of `(close, volume)` bars. -/
def vwapCol (bars : List (K × K)) : List (PFloat K) :=
  vwapAux 0 0 bars

end NumericCore

/-- Bollinger upper band `bb.bollinger_hband()` at index `t`:
rolling mean plus two rolling population standard deviations
(`ta.volatility.BollingerBands` with its defaults `window=20`, `window_dev=2`,
`ddof=0`).  Modelled from the spec; defined over `ℝ` because of the square
root. -/
noncomputable def bbUpperAt (xs : List ℝ) (t : ℕ) : ℝ :=
  rollingMeanAt 20 xs t + 2 * Real.sqrt (rollingVarAt 20 xs t)

/-- Bollinger lower band `bb.bollinger_lband()` at index `t`. -/
noncomputable def bbLowerAt (xs : List ℝ) (t : ℕ) : ℝ :=
  rollingMeanAt 20 xs t - 2 * Real.sqrt (rollingVarAt 20 xs t)

/-- Percentage computed by `show_summary`:
`(data['Close'][-1] - data['Close'][0]) / data['Close'][0] * 100`.
Positional indexing on an empty frame raises, embedded as `none`; otherwise
the first and last entries of the close series are used directly (the series
reaching this function has already been cleaned by `dropna`, so every entry
is valid). -/
def showSummaryPerf (closes : List ℚ) : Option ℚ :=
  match closes with
  | [] => none
  | c :: rest => some (((c :: rest).getLastD 0 - c) / c * 100)

/-! ## Program-level model: DataFrames as tables in a heap

Python passes DataFrames by reference; `df['X'] = ...` mutates the shared
object while `data.copy()` allocates a fresh one.  We model the store as a
list of tables (`Heap`), a reference as an index into it, a table as an
ordered association list of named columns, and a cell as a float, a string
or NaN.  Cells carry `ℝ` because the Bollinger columns hold square roots. -/

/-- One DataFrame cell. -/
inductive Cell where
  | num : ℝ → Cell
  | str : String → Cell
  | na : Cell

/-- A named-column body. -/
abbrev Column := List Cell

/-- A DataFrame: ordered columns, each with a name.  `df['X'] = v` replaces
the column named `X` in place or appends a new one at the end. -/
abbrev Table := List (String × Column)

/-- The store of live DataFrames. -/
abbrev Heap := List Table

/-- Dereference a DataFrame. -/
def hGet (h : Heap) (r : ℕ) : Table :=
  h.getD r []

/-- Column lookup `df[nm]` as an optional column: the first (unique) column of that name. -/
def tGetCol : Table → String → Option Column
  | [], _ => none
  | p :: rest, nm => if p.1 == nm then some p.2 else tGetCol rest nm

/-- Column assignment `df[nm] = col`: replaces the existing column of that name, otherwise
appends it after the existing columns (pandas column-assignment order). -/
def tSetCol : Table → String → Column → Table
  | [], nm, col => [(nm, col)]
  | p :: rest, nm, col =>
      if p.1 == nm then (nm, col) :: rest else p :: tSetCol rest nm col

/-- Row count `len(df)`: the number of rows (length of the first column; every column
of an aligned frame has the same length). -/
def tNumRows (t : Table) : ℕ :=
  ((t.headD ("", [])).2).length

/-- In-place column assignment on the DataFrame behind reference `r`. -/
def hSetCol (h : Heap) (r : ℕ) (nm : String) (col : Column) : Heap :=
  h.set r (tSetCol (hGet h r) nm col)

/-- Numeric content of a cell (cleaned data holds no NaN in OHLCV columns). -/
def numCell : Cell → ℝ
  | Cell.num x => x
  | _ => 0

/-- The numeric series of column `nm` of a table. -/
def tColNums (t : Table) (nm : String) : List ℝ :=
  ((tGetCol t nm).getD []).map numCell

/-- RSI column with the `min_periods=14` NaN mask of
`ta.momentum.RSIIndicator` (the first value sits at row 14: row 0 has no
diff and rows 1..13 are within the warm-up window). -/
noncomputable def rsiColumn (closes : List ℝ) : Column :=
  (List.range closes.length).map
    (fun t => if t < 14 then Cell.na else Cell.num ((rsiList closes).getD (t - 1) 0))

/-- MACD column with the `min_periods=26` mask inherited from the slow EMA. -/
noncomputable def macdColumn (closes : List ℝ) : Column :=
  (List.range closes.length).map
    (fun t => if t < 25 then Cell.na else Cell.num ((taMacd closes).getD t 0))

/-- MACD signal column: span-9 `adjust=False` EMA of the defined MACD values
(pandas seeds past the leading NaNs), masked by its own `min_periods=9`. -/
noncomputable def macdSignalColumn (closes : List ℝ) : Column :=
  (List.range closes.length).map
    (fun t => if t < 33 then Cell.na
      else Cell.num ((ewmRec (2 / 10) ((taMacd closes).drop 25)).getD (t - 25) 0))

/-- Column form of `df['Close'].rolling(w).mean()` with its leading NaNs. -/
noncomputable def smaColumn (w : ℕ) (closes : List ℝ) : Column :=
  (rollingMeanCol w closes).map
    (fun o => match o with | some x => Cell.num x | none => Cell.na)

/-- Column form of `df['Close'].ewm(span=s).mean()` (defined from row 0). -/
noncomputable def emaColumn (s : ℝ) (closes : List ℝ) : Column :=
  (emaCol s closes).map Cell.num

/-- Bollinger upper-band column with its `min_periods=20` mask. -/
noncomputable def bbhColumn (closes : List ℝ) : Column :=
  (List.range closes.length).map
    (fun t => if t < 19 then Cell.na else Cell.num (bbUpperAt closes t))

/-- Bollinger lower-band column with its `min_periods=20` mask. -/
noncomputable def bblColumn (closes : List ℝ) : Column :=
  (List.range closes.length).map
    (fun t => if t < 19 then Cell.na else Cell.num (bbLowerAt closes t))

/-- A pandas float as a cell (`nan` and infinities display as missing). -/
def pfloatCell : PFloat ℝ → Cell
  | PFloat.val x => Cell.num x
  | _ => Cell.na

/-- The VWAP column of `add_indicators`. -/
noncomputable def vwapColumn (closes volumes : List ℝ) : Column :=
  (vwapCol (closes.zip volumes)).map pfloatCell

/-- Embedding of `add_indicators(data)`: copies the argument frame (`df = data.copy()`),
then conditionally assigns each selected indicator column on the copy, and
returns (the reference to) the copy.  `inds` is the global `indicators`
multiselect value. -/
noncomputable def addIndicatorsProg (inds : List String) (h : Heap) (r : ℕ) :
    Heap × ℕ :=
  let rc := h.length
  let h1 := h ++ [hGet h r]
  let h2 := if "RSI" ∈ inds then
      hSetCol h1 rc "RSI" (rsiColumn (tColNums (hGet h1 rc) "Close")) else h1
  let h3 := if "MACD" ∈ inds then
      hSetCol (hSetCol h2 rc "MACD" (macdColumn (tColNums (hGet h2 rc) "Close")))
        rc "MACD_Signal" (macdSignalColumn (tColNums (hGet h2 rc) "Close")) else h2
  let h4 := if "SMA_20" ∈ inds then
      hSetCol h3 rc "SMA_20" (smaColumn 20 (tColNums (hGet h3 rc) "Close")) else h3
  let h5 := if "SMA_50" ∈ inds then
      hSetCol h4 rc "SMA_50" (smaColumn 50 (tColNums (hGet h4 rc) "Close")) else h4
  let h6 := if "EMA_20" ∈ inds then
      hSetCol h5 rc "EMA_20" (emaColumn 20 (tColNums (hGet h5 rc) "Close")) else h5
  let h7 := if "EMA_50" ∈ inds then
      hSetCol h6 rc "EMA_50" (emaColumn 50 (tColNums (hGet h6 rc) "Close")) else h6
  let h8 := if "BBANDS" ∈ inds then
      hSetCol (hSetCol h7 rc "BB_H" (bbhColumn (tColNums (hGet h7 rc) "Close")))
        rc "BB_L" (bblColumn (tColNums (hGet h7 rc) "Close")) else h7
  let h9 := if "VWAP" ∈ inds then
      hSetCol h8 rc "VWAP"
        (vwapColumn (tColNums (hGet h8 rc) "Close") (tColNums (hGet h8 rc) "Volume"))
    else h8
  (h9, rc)

/-- The chart traces `draw_chart` builds for one symbol: it reads columns of
the symbol's table (candles, optional overlays and oscillators) and pairs
them with a trace label; it performs no column assignment. -/
def tracesFor (tk : String) (t : Table) : List (String × Column) :=
  [(tk ++ " Candles", (tGetCol t "Close").getD [])] ++
    (match tGetCol t "SMA_20" with | some c => [(tk ++ " SMA 20", c)] | none => []) ++
    (match tGetCol t "EMA_20" with | some c => [(tk ++ " EMA 20", c)] | none => []) ++
    (match tGetCol t "BB_H" with | some c => [(tk ++ " BB Upper", c)] | none => []) ++
    (match tGetCol t "BB_L" with | some c => [(tk ++ " BB Lower", c)] | none => []) ++
    (match tGetCol t "VWAP" with | some c => [(tk ++ " VWAP", c)] | none => []) ++
    (match tGetCol t "MACD" with | some c => [(tk ++ " MACD", c)] | none => []) ++
    (match tGetCol t "MACD_Signal" with
      | some c => [(tk ++ " MACD Signal", c)] | none => []) ++
    (match tGetCol t "RSI" with | some c => [(tk ++ " RSI", c)] | none => [])

/-- Embedding of `draw_chart(all_data)`: folds over the portfolio reading each dataset and
accumulating its traces.  The body contains no assignment to any DataFrame,
so the heap comes back as it went in. -/
def drawChart (entries : List (String × ℕ)) (h : Heap) :
    List (String × Column) × Heap :=
  (entries.foldl (fun acc p => acc ++ tracesFor p.1 (hGet h p.2)) [], h)

/-- Embedding of `download_section(all_data)`: for every `(ticker, df)` in the portfolio it
executes `df['Ticker'] = ticker` — an in-place, broadcast column assignment
on the shared per-symbol DataFrame — before concatenating for CSV export. -/
def downloadSection (entries : List (String × ℕ)) (h : Heap) : Heap :=
  entries.foldl
    (fun hh p =>
      hSetCol hh p.2 "Ticker" (List.replicate (tNumRows (hGet hh p.2)) (Cell.str p.1)))
    h

/-- The fixed six-color palette of `draw_chart`. -/
def colors : List String :=
  ["cyan", "orange", "green", "magenta", "yellow", "red"]

/-- Source line `c = colors[idx % len(colors)]`: the color assigned to the symbol at
position `idx`. -/
def assignColor (idx : ℕ) : String :=
  colors.get ⟨idx % colors.length, Nat.mod_lt idx (by decide)⟩

/-! ## Generic list helpers -/

lemma getD_eq_getElem {α : Type} (l : List α) (d : α) {n : ℕ} (h : n < l.length) :
    l.getD n d = l[n] := by
  rw [List.getD_eq_getElem?_getD, List.getElem?_eq_getElem h]
  rfl

lemma getD_map_range {α : Type} (f : ℕ → α) (d : α) {n t : ℕ} (h : t < n) :
    ((List.range n).map f).getD t d = f t := by
  have hlen : t < ((List.range n).map f).length := by simpa using h
  rw [getD_eq_getElem _ _ hlen]
  simp

lemma getD_zipWith {α : Type} (f : α → α → α) (as bs : List α) (d : α) {t : ℕ}
    (ha : t < as.length) (hb : t < bs.length) :
    (List.zipWith f as bs).getD t d = f (as.getD t d) (bs.getD t d) := by
  rw [List.getD_eq_getElem?_getD, List.getD_eq_getElem?_getD, List.getD_eq_getElem?_getD,
    List.getElem?_zipWith, List.getElem?_eq_getElem ha, List.getElem?_eq_getElem hb]
  rfl

lemma getD_mem {α : Type} (l : List α) (d : α) {n : ℕ} (h : n < l.length) :
    l.getD n d ∈ l := by
  rw [getD_eq_getElem l d h]
  exact List.getElem_mem h

lemma mem_of_mem_zipWith {α β γ : Type} (f : α → β → γ) :
    ∀ (as : List α) (bs : List β) (c : γ), c ∈ List.zipWith f as bs →
      ∃ a, a ∈ as ∧ ∃ b, b ∈ bs ∧ c = f a b := by
  intro as
  induction as with
  | nil => intro bs c hc; simp at hc
  | cons a as ih =>
    intro bs c hc
    cases bs with
    | nil => simp at hc
    | cons b bs =>
      rcases List.mem_cons.mp hc with h | h
      · exact ⟨a, List.mem_cons_self a as, b, List.mem_cons_self b bs, h⟩
      · rcases ih bs c h with ⟨a2, ha2, b2, hb2, hc2⟩
        exact ⟨a2, List.mem_cons_of_mem a ha2, b2, List.mem_cons_of_mem b hb2, hc2⟩

/-! ## Exponentially weighted mean lemmas (pandas `adjust=True`) -/

lemma wSum_pos {β : ℚ} (hβ : 0 < β) (t : ℕ) : 0 < wSum β t :=
  Finset.sum_pos (fun j _ => pow_pos hβ j) Finset.nonempty_range_succ

lemma ewmAdjNum_succ (β : ℚ) (xs : List ℚ) (t : ℕ) :
    ∑ i in Finset.range (t + 2), β ^ (t + 1 - i) * xs.getD i 0
      = xs.getD (t + 1) 0 + β * ∑ i in Finset.range (t + 1), β ^ (t - i) * xs.getD i 0 := by
  rw [Finset.sum_range_succ, Nat.sub_self, pow_zero, one_mul, Finset.mul_sum, add_comm]
  congr 1
  refine Finset.sum_congr rfl (fun i hi => ?_)
  have hit : i ≤ t := Nat.lt_succ_iff.mp (Finset.mem_range.mp hi)
  have hexp : t + 1 - i = (t - i) + 1 := by omega
  rw [hexp, pow_succ]
  ring

/-! ## Recursive exponential smoothing lemmas (`adjust=False`) -/

lemma ewmRecAux_length (α : ℚ) :
    ∀ (xs : List ℚ) (prev : ℚ), (ewmRecAux α prev xs).length = xs.length := by
  intro xs
  induction xs with
  | nil => intro prev; rfl
  | cons x rest ih => intro prev; simp [ewmRecAux, ih]

lemma ewmRec_length (α : ℚ) (xs : List ℚ) : (ewmRec α xs).length = xs.length := by
  cases xs with
  | nil => rfl
  | cons x rest => simp [ewmRec, ewmRecAux_length]

lemma ewmRecAux_getD (α : ℚ) :
    ∀ (xs : List ℚ) (prev : ℚ) (t : ℕ), t < xs.length →
      (ewmRecAux α prev xs).getD t 0
        = α * xs.getD t 0 + (1 - α) * ((prev :: ewmRecAux α prev xs).getD t 0) := by
  intro xs
  induction xs with
  | nil => intro prev t ht; simp at ht
  | cons x rest ih =>
    intro prev t ht
    cases t with
    | zero =>
      simp [ewmRecAux]
      ring
    | succ u =>
      have hu : u < rest.length := by simpa using ht
      simp only [ewmRecAux, List.getD_cons_succ]
      exact ih ((1 - α) * prev + α * x) u hu

lemma ewmRec_getD_succ (α : ℚ) (xs : List ℚ) (t : ℕ) (ht : t + 1 < xs.length) :
    (ewmRec α xs).getD (t + 1) 0
      = α * xs.getD (t + 1) 0 + (1 - α) * (ewmRec α xs).getD t 0 := by
  cases xs with
  | nil => simp at ht
  | cons x rest =>
    have hu : t < rest.length := by simpa using ht
    simp only [ewmRec, List.getD_cons_succ]
    exact ewmRecAux_getD α rest x t hu

/-- The `adjust=False` exponentially weighted mean is exactly the spec's
seeded EMA recurrence, entry by entry. -/
lemma ewmRec_eq_emaSpecAt (α : ℚ) (xs : List ℚ) :
    ∀ t, t < xs.length → (ewmRec α xs).getD t 0 = emaSpecAt α xs t := by
  intro t
  induction t with
  | zero =>
    intro ht
    cases xs with
    | nil => simp at ht
    | cons x rest => rfl
  | succ u ih =>
    intro ht
    rw [ewmRec_getD_succ α xs u ht, ih (Nat.lt_of_succ_lt ht)]
    rfl

lemma ewmRecAux_nonneg (α : ℚ) (hα0 : 0 ≤ α) (hα1 : α ≤ 1) :
    ∀ (xs : List ℚ) (prev : ℚ), 0 ≤ prev → (∀ x ∈ xs, 0 ≤ x) →
      ∀ y ∈ ewmRecAux α prev xs, 0 ≤ y := by
  intro xs
  induction xs with
  | nil => intro prev _ _ y hy; simp [ewmRecAux] at hy
  | cons x rest ih =>
    intro prev hprev hxs y hy
    have hx : 0 ≤ x := hxs x (List.mem_cons_self x rest)
    have hy0 : 0 ≤ (1 - α) * prev + α * x := by
      have h1 : 0 ≤ (1 - α) * prev := mul_nonneg (by linarith) hprev
      have h2 : 0 ≤ α * x := mul_nonneg hα0 hx
      linarith
    simp only [ewmRecAux, List.mem_cons] at hy
    rcases hy with rfl | hy
    · exact hy0
    · exact ih ((1 - α) * prev + α * x) hy0
        (fun z hz => hxs z (List.mem_cons_of_mem x hz)) y hy

lemma ewmRec_nonneg (α : ℚ) (hα0 : 0 ≤ α) (hα1 : α ≤ 1) (xs : List ℚ)
    (hxs : ∀ x ∈ xs, 0 ≤ x) : ∀ y ∈ ewmRec α xs, 0 ≤ y := by
  cases xs with
  | nil => intro y hy; simp [ewmRec] at hy
  | cons x rest =>
    intro y hy
    simp only [ewmRec, List.mem_cons] at hy
    rcases hy with rfl | hy
    · exact hxs y (List.mem_cons_self y rest)
    · exact ewmRecAux_nonneg α hα0 hα1 rest x (hxs x (List.mem_cons_self x rest))
        (fun z hz => hxs z (List.mem_cons_of_mem x hz)) y hy

/-! ## Claim theorems -/

/-- C1 (counterexample).  The spec's seeded recurrence
`EMA[t] = α·c[t] + (1−α)·EMA[t−1]` fails on the EMA column that
`add_indicators` computes: `df['Close'].ewm(span=20).mean()` uses the pandas
default `adjust=True`, which weights all observations, so on the close series
`[0, 1]` the entry at `t = 1` is `21/40`, not `α·1 + (1−α)·0 = 2/21`. -/
theorem ema_recurrence_cex :
    ¬ ((emaCol 20 [(0 : ℚ), 1]).getD 1 0
        = 2 / (20 + 1) * ([(0 : ℚ), 1].getD 1 0)
          + (1 - 2 / (20 + 1)) * (emaCol 20 [(0 : ℚ), 1]).getD 0 0) := by
  intro hcl
  unfold emaCol at hcl
  rw [getD_map_range _ _ (by norm_num), getD_map_range _ _ (by norm_num)] at hcl
  unfold ewmAdjEntry wSum at hcl
  simp [Finset.sum_range_succ] at hcl
  norm_num at hcl

/-- C1 (amended).  The EMA column of `add_indicators` satisfies
`EMA[0] = c0`, but for `t > 0` it follows the pandas `adjust=True`
weighted-average recurrence `EMA[t]·W[t] = c[t] + (1−α)·EMA[t−1]·W[t−1]`
with weight total `W[t] = Σ_{j≤t} (1−α)^j` and `α = 2/(span+1)`,
for spans 20 and 50. -/
theorem ema_adjusted_recurrence (s : ℚ) (xs : List ℚ) (hs : s = 20 ∨ s = 50) :
    (∀ t, t < xs.length → (emaCol s xs).getD t 0 = ewmAdjEntry s xs t) ∧
    ewmAdjEntry s xs 0 = xs.getD 0 0 ∧
    ∀ t : ℕ,
      ewmAdjEntry s xs (t + 1) * wSum (1 - 2 / (s + 1)) (t + 1)
        = xs.getD (t + 1) 0
          + (1 - 2 / (s + 1)) * (ewmAdjEntry s xs t * wSum (1 - 2 / (s + 1)) t) := by
  have hβ : 0 < 1 - 2 / (s + 1) := by
    rcases hs with h | h <;> subst h <;> norm_num
  refine ⟨fun t ht => getD_map_range _ _ ht, ?_, fun t => ?_⟩
  · unfold ewmAdjEntry wSum
    simp
  · unfold ewmAdjEntry
    rw [div_mul_cancel₀ _ (wSum_pos hβ (t + 1)).ne',
      div_mul_cancel₀ _ (wSum_pos hβ t).ne']
    exact ewmAdjNum_succ (1 - 2 / (s + 1)) xs t

/-- Witness for `ema_adjusted_recurrence` at span 20 on `[3, 5]`. -/
theorem ema_adjusted_recurrence_w :
    ((20 : ℚ) = 20 ∨ (20 : ℚ) = 50) ∧ ewmAdjEntry 20 [(3 : ℚ), 5] 0 = [(3 : ℚ), 5].getD 0 0 :=
  ⟨Or.inl rfl, (ema_adjusted_recurrence 20 [(3 : ℚ), 5] (Or.inl rfl)).2.1⟩

/-- C9.  Color assignment in `draw_chart` is the deterministic
round-robin `colors[idx % len(colors)]` over the fixed six-color palette: it
is periodic with period 6, and the seventh symbol (index 6) reuses palette
index 0, the color `cyan`. -/
theorem assignColor_round_robin :
    (∀ i : ℕ, assignColor (i + 6) = assignColor i) ∧
    assignColor 6 = assignColor 0 ∧ assignColor 6 = "cyan" ∧ colors.length = 6 := by
  refine ⟨fun i => ?_, rfl, rfl, rfl⟩
  have h : (i + 6) % colors.length = i % colors.length := Nat.add_mod_right i 6
  exact congrArg colors.get (Fin.ext h)

/-- C4 (counterexample).  The claim says `show_summary` fails with
`InsufficientDataError` whenever fewer than 2 valid close values exist, but
the source has no such check: on a one-row series it computes
`(c - c)/c·100 = 0` and reports `0%`. -/
theorem showSummary_single_row_cex :
    ([(100 : ℚ)].length < 2) ∧ showSummaryPerf [(100 : ℚ)] = some 0 := by
  constructor
  · decide
  · unfold showSummaryPerf
    norm_num

/-- C4 (amended).  `show_summary` returns
`(close[-1] - close[0]) / close[0] × 100` over the (already cleaned, hence
all-valid) close series for every non-empty series; there is no
insufficient-data failure: a single-row series yields `0%`. -/
theorem showSummaryPerf_formula (closes : List ℚ) (h : closes ≠ []) :
    showSummaryPerf closes
      = some ((closes.getLastD 0 - closes.headD 0) / closes.headD 0 * 100) ∧
    ∀ c : ℚ, closes = [c] → showSummaryPerf closes = some 0 := by
  constructor
  · cases closes with
    | nil => exact absurd rfl h
    | cons c rest => rfl
  · intro c hc
    subst hc
    unfold showSummaryPerf
    norm_num

/-- Witness for `showSummaryPerf_formula` on the two-row series `[1, 3]`. -/
theorem showSummaryPerf_formula_w :
    ([(1 : ℚ), 3] ≠ []) ∧
      showSummaryPerf [(1 : ℚ), 3]
        = some (([(1 : ℚ), 3].getLastD 0 - [(1 : ℚ), 3].headD 0) / [(1 : ℚ), 3].headD 0 * 100) :=
  ⟨by decide, (showSummaryPerf_formula [(1 : ℚ), 3] (by decide)).1⟩

/-- C2.  Every RSI value produced by `add_indicators` lies in `[0, 100]`
(the Wilder averages of the nonnegative up/down moves are nonnegative, so
`RS ≥ 0` and `100 − 100/(1+RS) ∈ [0, 100)`), and whenever the smoothed
average loss is zero the entry is defined as exactly `100`; no entry is ever
negative. -/
theorem rsi_bounded (closes : List ℚ) :
    (∀ x ∈ rsiList closes, 0 ≤ x ∧ x ≤ 100) ∧
    ∀ t, t < (rsiList closes).length → (avgLoss closes).getD t 0 = 0 →
      (rsiList closes).getD t 0 = 100 := by
  have hups : ∀ x ∈ upMoves closes, 0 ≤ x := by
    intro x hx
    rcases List.mem_map.mp hx with ⟨d, _, rfl⟩
    exact le_max_right d 0
  have hdowns : ∀ x ∈ downMoves closes, 0 ≤ x := by
    intro x hx
    rcases List.mem_map.mp hx with ⟨d, _, rfl⟩
    exact le_max_right (-d) 0
  have hg : ∀ u ∈ avgGain closes, 0 ≤ u :=
    ewmRec_nonneg _ (by norm_num) (by norm_num) _ hups
  have hl : ∀ d ∈ avgLoss closes, 0 ≤ d :=
    ewmRec_nonneg _ (by norm_num) (by norm_num) _ hdowns
  constructor
  · intro x hx
    rcases mem_of_mem_zipWith _ _ _ _ hx with ⟨u, hu, d, hd, rfl⟩
    by_cases hd0 : d = 0
    · constructor <;> simp [hd0]
    · have hdpos : 0 < d := lt_of_le_of_ne (hl d hd) (Ne.symm hd0)
      have hrs : 0 ≤ u / d := div_nonneg (hg u hu) hdpos.le
      have hone : (0 : ℚ) < 1 + u / d := by linarith
      have hdiv_pos : 0 < 100 / (1 + u / d) := by positivity
      have hdiv_le : 100 / (1 + u / d) ≤ 100 := div_le_self (by norm_num) (by linarith)
      constructor <;> simp [hd0] <;> linarith
  · intro t ht h0
    have hlen : t < min (avgGain closes).length (avgLoss closes).length := by
      unfold rsiList at ht
      rw [List.length_zipWith] at ht
      exact ht
    unfold rsiList
    rw [getD_zipWith _ _ _ _ (lt_min_iff.mp hlen).1 (lt_min_iff.mp hlen).2, h0]
    simp

/-- Witness for `rsi_bounded`: the flat-then-up close series `[1, 2]` has
zero average loss at index 0, so its RSI is 100. -/
theorem rsi_bounded_w : (rsiList [(1 : ℚ), 2]).getD 0 0 = 100 :=
  (rsi_bounded [(1 : ℚ), 2]).2 0 (by decide)
    (by norm_num [avgLoss, downMoves, priceDiffs, ewmRec, ewmRecAux, max_def])

/-- C3.  At every index of the MACD column, the value is exactly
`EMA(12)[t] − EMA(26)[t]` where both EMAs satisfy the spec's seeded
recurrence (`α = 2/(span+1)`) on the cleaned close series, and every signal
value is the span-9 EMA (same recurrence) of the MACD values.  (`ta` uses
`adjust=False`, which coincides with the spec's recurrence; `min_periods`
masking only hides leading entries and does not change defined values.) -/
theorem macd_eq_ema_diff (closes : List ℚ) (t : ℕ) (ht : t < (taMacd closes).length) :
    (taMacd closes).getD t 0
      = emaSpecAt (2 / 13) closes t - emaSpecAt (2 / 27) closes t ∧
    ∀ u, u < (taMacdSignalVals closes).length →
      (taMacdSignalVals closes).getD u 0 = emaSpecAt (2 / 10) (taMacd closes) u := by
  have hlen : (taMacd closes).length = closes.length := by
    unfold taMacd
    rw [List.length_zipWith, ewmRec_length, ewmRec_length, min_self]
  constructor
  · have htc : t < closes.length := hlen ▸ ht
    have h12 : t < (ewmRec (2 / 13 : ℚ) closes).length := by
      rw [ewmRec_length]; exact htc
    have h26 : t < (ewmRec (2 / 27 : ℚ) closes).length := by
      rw [ewmRec_length]; exact htc
    unfold taMacd
    rw [getD_zipWith _ _ _ _ h12 h26, ewmRec_eq_emaSpecAt _ _ t htc,
      ewmRec_eq_emaSpecAt _ _ t htc]
  · intro u hu
    have hum : u < (taMacd closes).length := by
      unfold taMacdSignalVals at hu
      rw [ewmRec_length] at hu
      exact hu
    unfold taMacdSignalVals
    exact ewmRec_eq_emaSpecAt _ _ u hum

/-- Witness for `macd_eq_ema_diff` on the close series `[1, 2]` at index 0. -/
theorem macd_eq_ema_diff_w :
    (taMacd [(1 : ℚ), 2]).getD 0 0
      = emaSpecAt (2 / 13) [(1 : ℚ), 2] 0 - emaSpecAt (2 / 27) [(1 : ℚ), 2] 0 :=
  (macd_eq_ema_diff [(1 : ℚ), 2] 0 (by decide)).1

/-! ## Rolling-window lemmas -/

lemma sum_getD_eq_sum_slice (xs : List ℚ) :
    ∀ (a n : ℕ), a + n ≤ xs.length →
      ∑ i in Finset.range n, xs.getD (a + i) 0 = ((xs.drop a).take n).sum := by
  intro a n
  induction n with
  | zero => intro _; simp
  | succ m ih =>
    intro hle
    have hm : a + m < xs.length := by omega
    have h1 : (xs.drop a)[m]? = some xs[a + m] := by
      rw [List.getElem?_drop, List.getElem?_eq_getElem hm]
    rw [Finset.sum_range_succ, ih (by omega), List.take_succ, List.sum_append, h1]
    simp [getD_eq_getElem xs 0 hm, List.getElem?_eq_getElem hm]

lemma rollingMeanAt_eq_slice (w : ℕ) (xs : List ℚ) (t : ℕ) (hw : w ≤ t + 1)
    (ht : t < xs.length) :
    rollingMeanAt w xs t = ((xs.drop (t + 1 - w)).take w).sum / (w : ℚ) := by
  unfold rollingMeanAt
  congr 1
  rw [← Nat.Ico_succ_right, Finset.sum_Ico_eq_sum_range]
  have harg : t + 1 - (t + 1 - w) = w := by omega
  rw [harg]
  exact sum_getD_eq_sum_slice xs (t + 1 - w) w (by omega)

/-- C7.  For windows 20 and 50, the SMA column of `add_indicators` is
undefined on the first `w−1` rows, equals the arithmetic mean of the trailing
`w` closes at every later row, and on a constant-price series every defined
entry equals that constant. -/
theorem sma_window (w : ℕ) (hw : w = 20 ∨ w = 50) (xs : List ℚ) (t : ℕ)
    (ht : t < xs.length) :
    (t + 1 < w → (rollingMeanCol w xs).getD t none = none) ∧
    (w ≤ t + 1 → (rollingMeanCol w xs).getD t none
        = some (((xs.drop (t + 1 - w)).take w).sum / (w : ℚ))) ∧
    (∀ c : ℚ, (∀ x ∈ xs, x = c) → w ≤ t + 1 →
      (rollingMeanCol w xs).getD t none = some c) := by
  have hcol : (rollingMeanCol w xs).getD t none
      = if t + 1 < w then none else some (rollingMeanAt w xs t) :=
    getD_map_range _ _ ht
  refine ⟨fun hlt => ?_, fun hge => ?_, fun c hc hge => ?_⟩
  · rw [hcol, if_pos hlt]
  · rw [hcol, if_neg (by omega), rollingMeanAt_eq_slice w xs t hge ht]
  · rw [hcol, if_neg (by omega), rollingMeanAt_eq_slice w xs t hge ht]
    have hsub : (xs.drop (t + 1 - w)).take w = List.replicate w c := by
      refine List.eq_replicate_iff.mpr ⟨?_, ?_⟩
      · rw [List.length_take, List.length_drop]
        omega
      · intro b hb
        exact hc b (List.mem_of_mem_drop (List.mem_of_mem_take hb))
    have hw0 : (w : ℚ) ≠ 0 := by rcases hw with h | h <;> subst h <;> norm_num
    rw [hsub, List.sum_replicate, nsmul_eq_mul, mul_div_cancel_left₀ c hw0]

/-- Witness for `sma_window`: on twenty bars of constant close 5, the
SMA(20) entry at row 19 is defined and equals 5. -/
theorem sma_window_w :
    (rollingMeanCol 20 (List.replicate 20 (5 : ℚ))).getD 19 none = some 5 :=
  (sma_window 20 (Or.inl rfl) (List.replicate 20 (5 : ℚ)) 19 (by simp)).2.2 5
    (fun x hx => List.eq_of_mem_replicate hx) (by norm_num)

/-- C6.  Wherever the Bollinger bands and the SMA(20) middle are defined,
`BB_upper ≥ SMA(20) ≥ BB_lower`: the bands sit two (nonnegative) rolling
standard deviations above and below the rolling mean. -/
theorem bollinger_band_order (xs : List ℝ) (t : ℕ) (h19 : 19 ≤ t) (ht : t < xs.length) :
    bbLowerAt xs t ≤ rollingMeanAt 20 xs t ∧ rollingMeanAt 20 xs t ≤ bbUpperAt xs t := by
  have hs : 0 ≤ Real.sqrt (rollingVarAt 20 xs t) := Real.sqrt_nonneg _
  unfold bbLowerAt bbUpperAt
  constructor <;> linarith

/-- Witness for `bollinger_band_order` on twenty bars of constant close 1. -/
theorem bollinger_band_order_w :
    bbLowerAt (List.replicate 20 (1 : ℝ)) 19 ≤ rollingMeanAt 20 (List.replicate 20 (1 : ℝ)) 19 ∧
      rollingMeanAt 20 (List.replicate 20 (1 : ℝ)) 19 ≤ bbUpperAt (List.replicate 20 (1 : ℝ)) 19 :=
  bollinger_band_order (List.replicate 20 (1 : ℝ)) 19 (le_refl 19) (by simp)

/-! ## VWAP lemmas -/

lemma vwapAux_getD (bars : List (ℚ × ℚ)) :
    ∀ (scv sv : ℚ) (t : ℕ), t < bars.length →
      (vwapAux scv sv bars).getD t PFloat.nan
        = pdiv
            (scv + ∑ i in Finset.range (t + 1), (bars.getD i (0, 0)).1 * (bars.getD i (0, 0)).2)
            (sv + ∑ i in Finset.range (t + 1), (bars.getD i (0, 0)).2) := by
  induction bars with
  | nil => intro scv sv t ht; simp at ht
  | cons b rest ih =>
    intro scv sv t ht
    cases t with
    | zero => simp [vwapAux, Finset.sum_range_one]
    | succ u =>
      have hu : u < rest.length := by simpa using ht
      simp only [vwapAux, List.getD_cons_succ]
      rw [ih (scv + b.1 * b.2) (sv + b.2) u hu]
      congr 1
      · rw [Finset.sum_range_succ' (fun i => (((b :: rest).getD i (0, 0)).1 * ((b :: rest).getD i (0, 0)).2)) (u + 1)]
        simp only [List.getD_cons_succ, List.getD_cons_zero]
        ring
      · rw [Finset.sum_range_succ' (fun i => ((b :: rest).getD i (0, 0)).2) (u + 1)]
        simp only [List.getD_cons_succ, List.getD_cons_zero]
        ring

/-- C5.  Each VWAP entry is the cumulative `Σ(close·volume) / Σ(volume)`
from the first bar, computed with pandas float division, which cannot raise:
with nonnegative volumes, whenever the cumulative volume is zero the entry is
NaN (undefined) rather than an error — in particular every entry of an
all-zero-volume series is undefined. -/
theorem vwap_cumulative (bars : List (ℚ × ℚ)) (hv : ∀ b ∈ bars, 0 ≤ b.2) (t : ℕ)
    (ht : t < bars.length) :
    (vwapCol bars).getD t PFloat.nan
      = pdiv (∑ i in Finset.range (t + 1), (bars.getD i (0, 0)).1 * (bars.getD i (0, 0)).2)
          (∑ i in Finset.range (t + 1), (bars.getD i (0, 0)).2) ∧
    ((∑ i in Finset.range (t + 1), (bars.getD i (0, 0)).2) = 0 →
      (vwapCol bars).getD t PFloat.nan = PFloat.nan) := by
  have hbase := vwapAux_getD bars 0 0 t ht
  rw [zero_add, zero_add] at hbase
  refine ⟨hbase, fun hz => ?_⟩
  have hvol : ∀ i, 0 ≤ (bars.getD i (0, 0)).2 := by
    intro i
    by_cases hi : i < bars.length
    · exact hv _ (getD_mem bars (0, 0) hi)
    · rw [List.getD_eq_default]
      omega
  have hzero : ∀ i ∈ Finset.range (t + 1), (bars.getD i (0, 0)).2 = 0 :=
    (Finset.sum_eq_zero_iff_of_nonneg (fun i _ => hvol i)).mp hz
  have hcv : (∑ i in Finset.range (t + 1), (bars.getD i (0, 0)).1 * (bars.getD i (0, 0)).2) = 0 :=
    Finset.sum_eq_zero (fun i hi => by rw [hzero i hi, mul_zero])
  unfold vwapCol
  rw [hbase, hcv, hz]
  unfold pdiv
  simp

/-- Witness for `vwap_cumulative`: both entries of a two-bar series with zero
volume throughout are NaN, not an exception. -/
theorem vwap_cumulative_w :
    (vwapCol [((5 : ℚ), 0), ((7 : ℚ), 0)]).getD 1 PFloat.nan = PFloat.nan :=
  (vwap_cumulative [((5 : ℚ), 0), ((7 : ℚ), 0)] (by decide) 1 (by decide)).2
    (by simp [Finset.sum_range_succ])

/-! ## Heap lemmas for the frame-effect claims -/

lemma hGet_set_ne (h : Heap) (r' : ℕ) (t : Table) {r : ℕ} (hne : r ≠ r') :
    hGet (h.set r' t) r = hGet h r := by
  unfold hGet
  rw [List.getD_eq_getElem?_getD, List.getD_eq_getElem?_getD,
    List.getElem?_set_ne (Ne.symm hne)]

lemma hGet_hSetCol_ne (h : Heap) (r' : ℕ) (nm : String) (col : Column) {r : ℕ}
    (hne : r ≠ r') :
    hGet (hSetCol h r' nm col) r = hGet h r :=
  hGet_set_ne h r' _ hne

lemma hGet_hSetCol_self (h : Heap) {r : ℕ} (hr : r < h.length) (nm : String)
    (col : Column) :
    hGet (hSetCol h r nm col) r = tSetCol (hGet h r) nm col := by
  unfold hSetCol hGet
  rw [List.getD_eq_getElem?_getD, List.getElem?_set_eq_of_lt _ hr]
  rfl

lemma hSetCol_length (h : Heap) (r : ℕ) (nm : String) (col : Column) :
    (hSetCol h r nm col).length = h.length := by
  unfold hSetCol
  exact List.length_set h r _

lemma ite_write_skip {r r' : ℕ} (hne : r ≠ r') (c : Prop) [Decidable c] (X : Heap)
    (nm : String) (col : Column) :
    hGet (if c then hSetCol X r' nm col else X) r = hGet X r := by
  split
  · exact hGet_hSetCol_ne X r' nm col hne
  · rfl

lemma ite_write_skip2 {r r' : ℕ} (hne : r ≠ r') (c : Prop) [Decidable c] (X : Heap)
    (nm1 nm2 : String) (col1 col2 : Column) :
    hGet (if c then hSetCol (hSetCol X r' nm1 col1) r' nm2 col2 else X) r = hGet X r := by
  split
  · rw [hGet_hSetCol_ne _ _ _ _ hne, hGet_hSetCol_ne _ _ _ _ hne]
  · rfl

lemma hGet_append_singleton (h : Heap) (t : Table) {r : ℕ} (hr : r < h.length) :
    hGet (h ++ [t]) r = hGet h r := by
  unfold hGet
  rw [List.getD_eq_getElem?_getD, List.getD_eq_getElem?_getD, List.getElem?_append,
    if_pos hr]

lemma tGetCol_tSetCol_ne :
    ∀ (t : Table) (nm nm2 : String) (col : Column), nm ≠ nm2 →
      tGetCol (tSetCol t nm col) nm2 = tGetCol t nm2 := by
  intro t
  induction t with
  | nil =>
    intro nm nm2 col hne
    simp [tSetCol, tGetCol, hne]
  | cons p rest ih =>
    intro nm nm2 col hne
    by_cases hp : p.1 = nm
    · simp [tSetCol, tGetCol, hp, hne]
    · simp only [tSetCol, tGetCol]
      rw [if_neg (by simpa using hp)]
      by_cases hp2 : p.1 = nm2
      · simp [tGetCol, hp2]
      · simp only [tGetCol]
        rw [if_neg (by simpa using hp2), if_neg (by simpa using hp2)]
        exact ih nm nm2 col hne

lemma downloadSection_preserve :
    ∀ (entries : List (String × ℕ)) (h : Heap) (r : ℕ),
      (∀ e ∈ entries, e.2 ≠ r) → hGet (downloadSection entries h) r = hGet h r := by
  intro entries
  induction entries with
  | nil => intro h r _; rfl
  | cons e rest ih =>
    intro h r hne
    unfold downloadSection
    rw [List.foldl_cons]
    have hrec := ih
      (hSetCol h e.2 "Ticker" (List.replicate (tNumRows (hGet h e.2)) (Cell.str e.1))) r
      (fun x hx => hne x (List.mem_cons_of_mem e hx))
    unfold downloadSection at hrec
    rw [hrec]
    exact hGet_hSetCol_ne _ _ _ _ (Ne.symm (hne e (List.mem_cons_self e rest)))

lemma downloadSection_entry :
    ∀ (entries : List (String × ℕ)) (h : Heap),
      entries.Pairwise (fun a b => a.2 ≠ b.2) →
      (∀ e ∈ entries, e.2 < h.length) →
      ∀ i (hi : i < entries.length),
        hGet (downloadSection entries h) (entries.get ⟨i, hi⟩).2
          = tSetCol (hGet h (entries.get ⟨i, hi⟩).2) "Ticker"
              (List.replicate (tNumRows (hGet h (entries.get ⟨i, hi⟩).2))
                (Cell.str (entries.get ⟨i, hi⟩).1)) := by
  intro entries
  induction entries with
  | nil => intro h _ _ i hi; exact absurd hi (by simp)
  | cons e rest ih =>
    intro h hnd hlt i hi
    have hner : ∀ b ∈ rest, e.2 ≠ b.2 := (List.pairwise_cons.mp hnd).1
    have hndr : rest.Pairwise (fun a b => a.2 ≠ b.2) := (List.pairwise_cons.mp hnd).2
    unfold downloadSection
    rw [List.foldl_cons]
    cases i with
    | zero =>
      have hpres := downloadSection_preserve rest
        (hSetCol h e.2 "Ticker" (List.replicate (tNumRows (hGet h e.2)) (Cell.str e.1)))
        e.2 (fun x hx => (hner x hx).symm)
      unfold downloadSection at hpres
      rw [show ((e :: rest).get ⟨0, hi⟩) = e from rfl, hpres]
      exact hGet_hSetCol_self h (hlt e (List.mem_cons_self e rest)) "Ticker" _
    | succ j =>
      have hj : j < rest.length := by simpa using hi
      have hlt' : ∀ x ∈ rest,
          x.2 < (hSetCol h e.2 "Ticker"
            (List.replicate (tNumRows (hGet h e.2)) (Cell.str e.1))).length := by
        intro x hx
        rw [hSetCol_length]
        exact hlt x (List.mem_cons_of_mem e hx)
      have hrec := ih
        (hSetCol h e.2 "Ticker" (List.replicate (tNumRows (hGet h e.2)) (Cell.str e.1)))
        hndr hlt' j hj
      unfold downloadSection at hrec
      have hrne : (rest.get ⟨j, hj⟩).2 ≠ e.2 := by
        have hm : rest.get ⟨j, hj⟩ ∈ rest := List.get_mem rest j hj
        exact fun hcontra => (hner _ hm) hcontra.symm
      simp only [List.get_cons_succ]
      rw [hrec, hGet_hSetCol_ne _ _ _ _ hrne]

/-! ## Frame-effect claim theorems -/

/-- C8 (counterexample).  Producing the tagged tabular export does NOT
leave the per-symbol datasets unchanged: `download_section` executes
`df['Ticker'] = ticker` on each shared DataFrame in place, so after it runs a
one-column table has gained a second column. -/
theorem download_mutates_cex :
    hGet (downloadSection [("AAA", 0)] [[("Close", [Cell.num 1])]]) 0
      ≠ hGet [[("Close", [Cell.num 1])]] 0 := by
  intro heq
  have hlen2 :
      (hGet (downloadSection [("AAA", 0)] [[("Close", [Cell.num 1])]]) 0).length = 2 := rfl
  rw [heq] at hlen2
  have hlen1 : (hGet [[("Close", [Cell.num (1 : ℝ)])]] 0).length = 1 := rfl
  exact absurd (hlen1.symm.trans hlen2) (by norm_num)

/-- C8 (amended).  `draw_chart` only reads the datasets (the heap is
returned unchanged), and `download_section` changes each per-symbol table in
exactly one way: it assigns the `Ticker` column in place (broadcasting the
symbol name to every row); every other column keeps its value. -/
theorem download_adds_ticker_only (entries : List (String × ℕ)) (h : Heap)
    (hnd : entries.Pairwise (fun a b => a.2 ≠ b.2))
    (hlt : ∀ e ∈ entries, e.2 < h.length) :
    (drawChart entries h).2 = h ∧
    ∀ i (hi : i < entries.length),
      hGet (downloadSection entries h) (entries.get ⟨i, hi⟩).2
        = tSetCol (hGet h (entries.get ⟨i, hi⟩).2) "Ticker"
            (List.replicate (tNumRows (hGet h (entries.get ⟨i, hi⟩).2))
              (Cell.str (entries.get ⟨i, hi⟩).1)) ∧
      ∀ nm, nm ≠ "Ticker" →
        tGetCol (hGet (downloadSection entries h) (entries.get ⟨i, hi⟩).2) nm
          = tGetCol (hGet h (entries.get ⟨i, hi⟩).2) nm := by
  refine ⟨rfl, fun i hi => ?_⟩
  have hmain := downloadSection_entry entries h hnd hlt i hi
  refine ⟨hmain, fun nm hnm => ?_⟩
  rw [hmain]
  exact tGetCol_tSetCol_ne _ _ _ _ (Ne.symm hnm)

/-- Witness for `download_adds_ticker_only` on a one-symbol portfolio. -/
theorem download_adds_ticker_only_w :
    hGet (downloadSection [("AAA", 0)] [[("Close", [Cell.num 1])]]) 0
      = tSetCol (hGet [[("Close", [Cell.num 1])]] 0) "Ticker"
          (List.replicate (tNumRows (hGet [[("Close", [Cell.num 1])]] 0))
            (Cell.str "AAA")) :=
  ((download_adds_ticker_only [("AAA", 0)] [[("Close", [Cell.num 1])]]
      (by simp) (by simp)).2 0 (by simp)).1

/-- C10.  `add_indicators` never mutates its argument: it assigns
indicator columns only on the fresh copy it allocates (`df = data.copy()`),
so the caller's table is unchanged by the call, whatever indicators are
selected. -/
theorem addIndicators_no_mutation (inds : List String) (h : Heap) (r : ℕ)
    (hr : r < h.length) :
    hGet (addIndicatorsProg inds h r).1 r = hGet h r := by
  have hne : r ≠ h.length := Nat.ne_of_lt hr
  unfold addIndicatorsProg
  simp only [ite_write_skip hne, ite_write_skip2 hne]
  exact hGet_append_singleton h (hGet h r) hr

/-- Witness for `addIndicators_no_mutation`: a one-table heap with all
indicators selected. -/
theorem addIndicators_no_mutation_w :
    hGet (addIndicatorsProg
        ["MACD", "RSI", "SMA_20", "SMA_50", "EMA_20", "EMA_50", "BBANDS", "VWAP"]
        [[("Close", [Cell.num 1]), ("Volume", [Cell.num 2])]] 0).1 0
      = hGet [[("Close", [Cell.num 1]), ("Volume", [Cell.num 2])]] 0 :=
  addIndicators_no_mutation _ _ 0 (by simp)

end Stash
